import Mathlib

/-!
Shallow embedding of the roguebench command-bus core
(crates/roguebench-core/src/commands.rs and
crates/roguebench-engine/src/commands/{bus,log,validate}.rs).

Modelling conventions:
* Rust `u64` values are `Nat`; the only u64 arithmetic in the embedded code
  is the bus's `next_id += 1`, modelled with an explicit `% 2 ^ 64`.
* The wall clock consulted by `CommandBus::send` (`SystemTime::now()`) is an
  external collaborator; it is passed in as an explicit `timestamp_ms`
  argument, stored verbatim as the source does.
* `VecDeque` is a `List` with `push_back` appending at the tail and
  `drain(..)` removing from the front; since Rust's `Drain` removes every
  element when dropped even if the caller stops consuming it, `drain` is
  modelled as eagerly returning the whole queue and emptying the bus.
* Filesystem effects (the best-effort auto-persist append) are explicit
  state: a `PersistFS` record carrying the backing file's lines and a flag
  for whether the host lets the open/write succeed.  `save_to_file` /
  `load_from_file` are modelled at the granularity the code works at: one
  serialized record per line, with JSON represented as an AST (`Json`)
  mirroring serde_json's data model for the concrete structs involved.
-/

namespace Roguebench

/-- Rust `CommandId(pub u64)` from roguebench-core/src/commands.rs. -/
structure CommandId where
  val : Nat
deriving DecidableEq

/-- Embeds `CommandId::new`. -/
def CommandId.new (id : Nat) : CommandId :=
  ⟨id⟩

/-- Rust `CommandMeta` from roguebench-core/src/commands.rs: id, timestamp,
optional frame. -/
structure CommandMeta where
  id : CommandId
  timestamp_ms : Nat
  frame : Option Nat
deriving DecidableEq

/-- Embeds `CommandMeta::new`: frame starts absent. -/
def CommandMeta.new (id : CommandId) (timestamp_ms : Nat) : CommandMeta :=
  { id := id, timestamp_ms := timestamp_ms, frame := none }

/-- Embeds `CommandMeta::with_frame`. -/
def CommandMeta.with_frame (m : CommandMeta) (frame : Nat) : CommandMeta :=
  { m with frame := some frame }

/-- Rust `Envelope<C>` from roguebench-core/src/commands.rs. -/
structure Envelope (C : Type) where
  command : C
  meta : CommandMeta
deriving DecidableEq

/-- Embeds `Envelope::new`. -/
def Envelope.new {C : Type} (command : C) (meta : CommandMeta) : Envelope C :=
  { command := command, meta := meta }

/-- Rust `CommandBus<C>` from roguebench-engine/src/commands/bus.rs:
a FIFO queue, the `u64` identity counter, and the current frame. -/
structure CommandBus (C : Type) where
  queue : List (Envelope C)
  next_id : Nat
  current_frame : Nat
deriving DecidableEq

/-- Embeds `impl Default for CommandBus`: empty queue, counter 1, frame 0. -/
def CommandBus.mkDefault (C : Type) : CommandBus C :=
  { queue := [], next_id := 1, current_frame := 0 }

/-- Embeds `CommandBus::new` (delegates to `Default`). -/
def CommandBus.new (C : Type) : CommandBus C :=
  CommandBus.mkDefault C

/-- Embeds `CommandBus::send`: read the counter as the id, increment it
(u64 wrap-around made explicit), stamp the externally supplied timestamp and
the bus's current frame, push at the tail.  Returns the id and the new bus. -/
def CommandBus.send {C : Type} (bus : CommandBus C) (command : C)
    (timestamp_ms : Nat) : CommandId × CommandBus C :=
  let id := CommandId.new bus.next_id
  let meta := (CommandMeta.new id timestamp_ms).with_frame bus.current_frame
  let envelope := Envelope.new command meta
  (id, { bus with
          queue := bus.queue ++ [envelope],
          next_id := (bus.next_id + 1) % 2 ^ 64 })

/-- Embeds `CommandBus::send_with_meta`: enqueue with the caller's metadata,
touching neither the counter nor the frame. -/
def CommandBus.send_with_meta {C : Type} (bus : CommandBus C) (command : C)
    (meta : CommandMeta) : CommandBus C :=
  { bus with queue := bus.queue ++ [Envelope.new command meta] }

/-- Embeds `CommandBus::drain`: `self.queue.drain(..)` yields every pending
envelope front-to-back and leaves the queue empty (Rust's `Drain` clears the
backing `VecDeque` on drop even when not fully consumed). -/
def CommandBus.drain {C : Type} (bus : CommandBus C) :
    List (Envelope C) × CommandBus C :=
  (bus.queue, { bus with queue := [] })

/-- Embeds `CommandBus::is_empty`. -/
def CommandBus.is_empty {C : Type} (bus : CommandBus C) : Bool :=
  bus.queue.isEmpty

/-- Embeds `CommandBus::len`. -/
def CommandBus.len {C : Type} (bus : CommandBus C) : Nat :=
  bus.queue.length

/-- Embeds `CommandBus::peek`: `self.queue.front()`. -/
def CommandBus.peek {C : Type} (bus : CommandBus C) : Option (Envelope C) :=
  bus.queue.head?

/-- Embeds `CommandBus::set_frame`. -/
def CommandBus.set_frame {C : Type} (bus : CommandBus C) (frame : Nat) :
    CommandBus C :=
  { bus with current_frame := frame }

/-- Embeds `CommandBus::frame`. -/
def CommandBus.frame {C : Type} (bus : CommandBus C) : Nat :=
  bus.current_frame

/-- Embeds `CommandBus::clear`. -/
def CommandBus.clear {C : Type} (bus : CommandBus C) : CommandBus C :=
  { bus with queue := [] }

/-- A sequence of `send` calls, each with its command and the wall-clock
reading the host supplies for it; returns the ids in call order and the
final bus. -/
def CommandBus.sendAll {C : Type} (bus : CommandBus C) :
    List (C × Nat) → List CommandId × CommandBus C
  | [] => ([], bus)
  | (c, ts) :: rest =>
    let step := bus.send c ts
    let tail := step.2.sendAll rest
    (step.1 :: tail.1, tail.2)

/-- Rust `ValidationError` from roguebench-core/src/commands.rs. -/
structure ValidationError where
  command_type : String
  reason : String
  field : Option String
deriving DecidableEq

/-- Embeds `ValidationError::new`: no field. -/
def ValidationError.new (command_type reason : String) : ValidationError :=
  { command_type := command_type, reason := reason, field := none }

/-- Embeds `ValidationError::field`. -/
def ValidationError.mkField (command_type field reason : String) :
    ValidationError :=
  { command_type := command_type, reason := reason, field := some field }

/-- A validator for commands of type `C`: the single method of the Rust
`Validator<C>` trait, `fn validate(&self, &C) -> Result<(), ValidationError>`,
as the function it denotes. -/
def ValidatorFn (C : Type) : Type :=
  C → Except ValidationError Unit

/-- Rust `Validators<C>` from roguebench-engine/src/commands/validate.rs:
the boxed validators in registration order. -/
structure Validators (C : Type) where
  validators : List (ValidatorFn C)

/-- Embeds `Validators::new` / `Default`: empty. -/
def Validators.new (C : Type) : Validators C :=
  ⟨[]⟩

/-- Embeds `Validators::add`: push at the end, preserving registration
order. -/
def Validators.add {C : Type} (vs : Validators C) (v : ValidatorFn C) :
    Validators C :=
  ⟨vs.validators ++ [v]⟩

/-- The `for validator in &self.validators { validator.validate(command)?; }`
loop of `Validators::validate`: stop at the first error. -/
def validateLoop {C : Type} (l : List (ValidatorFn C)) (c : C) :
    Except ValidationError Unit :=
  match l with
  | [] => Except.ok ()
  | v :: rest =>
    match v c with
    | Except.error e => Except.error e
    | Except.ok _ => validateLoop rest c

/-- Embeds `Validators::validate`: fail-fast over registration order. -/
def Validators.validate {C : Type} (vs : Validators C) (c : C) :
    Except ValidationError Unit :=
  validateLoop vs.validators c

/-- Rust `Result::err`: the error if any. -/
def exceptErr {ε α : Type} : Except ε α → Option ε
  | Except.error e => some e
  | Except.ok _ => none

/-- Embeds `Validators::validate_all`:
`self.validators.iter().filter_map(|v| v.validate(command).err()).collect()`. -/
def Validators.validate_all {C : Type} (vs : Validators C) (c : C) :
    List ValidationError :=
  vs.validators.filterMap (fun v => exceptErr (v c))

/-- Embeds `Validators::is_empty`. -/
def Validators.is_empty {C : Type} (vs : Validators C) : Bool :=
  vs.validators.isEmpty

/-- Embeds `Validators::len`. -/
def Validators.len {C : Type} (vs : Validators C) : Nat :=
  vs.validators.length

/-- The serde_json data model, restricted to what the embedded structs
serialize into.  Numbers here are the non-negative integers the `u64`
fields produce. -/
inductive Json where
  | null : Json
  | bool : Bool → Json
  | num : Nat → Json
  | str : String → Json
  | arr : List Json → Json
  | obj : List (String × Json) → Json

/-- Field lookup on a serialized object, as serde's map access. -/
def jsonField (j : Json) (key : String) : Option Json :=
  match j with
  | Json.obj fields => fields.lookup key
  | _ => none

/-- Serialization of `CommandMeta` as serde derives it: `CommandId` is a
newtype struct and serializes transparently as its number; `frame: None`
serializes as `null`. -/
def CommandMeta.toJson (m : CommandMeta) : Json :=
  Json.obj
    [("id", Json.num m.id.val),
     ("timestamp_ms", Json.num m.timestamp_ms),
     ("frame", match m.frame with
               | none => Json.null
               | some f => Json.num f)]

/-- Deserialization of `CommandMeta` as serde derives it: the two required
fields must be present as numbers; the `Option` field reads `null` as absent
and, being an `Option`, also defaults to absent when missing. -/
def CommandMeta.fromJson (j : Json) : Option CommandMeta :=
  match jsonField j "id", jsonField j "timestamp_ms" with
  | some (Json.num n), some (Json.num ts) =>
    match jsonField j "frame" with
    | some Json.null => some ⟨CommandId.new n, ts, none⟩
    | some (Json.num f) => some ⟨CommandId.new n, ts, some f⟩
    | none => some ⟨CommandId.new n, ts, none⟩
    | some _ => none
  | _, _ => none

/-- Rust `LogEntry<C>` from roguebench-engine/src/commands/log.rs. -/
structure LogEntry (C : Type) where
  command : C
  meta : CommandMeta
  succeeded : Bool
deriving DecidableEq

/-- Embeds `LogEntry::success`. -/
def LogEntry.success {C : Type} (command : C) (meta : CommandMeta) :
    LogEntry C :=
  { command := command, meta := meta, succeeded := true }

/-- Embeds `LogEntry::failed`. -/
def LogEntry.failed {C : Type} (command : C) (meta : CommandMeta) :
    LogEntry C :=
  { command := command, meta := meta, succeeded := false }

/-- Serialization of `LogEntry<C>` as serde derives it, parametrised by the
command type's own serializer `encC`. -/
def LogEntry.toJson {C : Type} (encC : C → Json) (e : LogEntry C) : Json :=
  Json.obj
    [("command", encC e.command),
     ("meta", e.meta.toJson),
     ("succeeded", Json.bool e.succeeded)]

/-- Deserialization of `LogEntry<C>`, parametrised by the command type's
deserializer `decC`. -/
def LogEntry.fromJson {C : Type} (decC : Json → Option C) (j : Json) :
    Option (LogEntry C) :=
  match jsonField j "command", jsonField j "meta", jsonField j "succeeded" with
  | some cj, some mj, some (Json.bool b) =>
    match decC cj, CommandMeta.fromJson mj with
    | some c, some m => some ⟨c, m, b⟩
    | _, _ => none
  | _, _, _ => none

/-- Rust `CommandLog<C>` from roguebench-engine/src/commands/log.rs. -/
structure CommandLog (C : Type) where
  entries : List (LogEntry C)
  auto_persist : Bool
  persist_path : Option String
deriving DecidableEq

/-- Embeds `CommandLog::new` / `Default`: empty, auto-persist off. -/
def CommandLog.new (C : Type) : CommandLog C :=
  { entries := [], auto_persist := false, persist_path := none }

/-- Embeds `CommandLog::with_persistence`. -/
def CommandLog.with_persistence (C : Type) (path : String) : CommandLog C :=
  { entries := [], auto_persist := true, persist_path := some path }

/-- State of the host filesystem as the best-effort auto-persist append sees
it: the lines already in the backing file, and whether the host lets the
open-append-write sequence succeed this time (the code ignores the failing
branches with `if let Ok`/`let _ =`). -/
structure PersistFS where
  io_ok : Bool
  lines : List Json

/-- Embeds `CommandLog::append`: unconditionally push the entry onto the
in-memory vector; then, only if auto-persist is on, a path is set, and the
host I/O succeeds, append one serialized line to the backing file.  Every
failure branch of the persistence step is swallowed, so the function is
total and returns no error. -/
def CommandLog.append {C : Type} (encC : C → Json) (log : CommandLog C)
    (entry : LogEntry C) (fs : PersistFS) : CommandLog C × PersistFS :=
  let log' := { log with entries := log.entries ++ [entry] }
  match log'.auto_persist, log'.persist_path, fs.io_ok with
  | true, some _, true =>
    (log', { fs with lines := fs.lines ++ [LogEntry.toJson encC entry] })
  | _, _, _ => (log', fs)

/-- Embeds `CommandLog::log_success`. -/
def CommandLog.log_success {C : Type} (encC : C → Json) (log : CommandLog C)
    (command : C) (meta : CommandMeta) (fs : PersistFS) :
    CommandLog C × PersistFS :=
  log.append encC (LogEntry.success command meta) fs

/-- Embeds `CommandLog::log_failure`. -/
def CommandLog.log_failure {C : Type} (encC : C → Json) (log : CommandLog C)
    (command : C) (meta : CommandMeta) (fs : PersistFS) :
    CommandLog C × PersistFS :=
  log.append encC (LogEntry.failed command meta) fs

/-- Embeds `CommandLog::len`. -/
def CommandLog.len {C : Type} (log : CommandLog C) : Nat :=
  log.entries.length

/-- Embeds `CommandLog::is_empty`. -/
def CommandLog.is_empty {C : Type} (log : CommandLog C) : Bool :=
  log.entries.isEmpty

/-- Embeds `CommandLog::clear`. -/
def CommandLog.clear {C : Type} (log : CommandLog C) : CommandLog C :=
  { log with entries := [] }

/-- Embeds `CommandLog::get_by_id`:
`self.entries.iter().find(|e| e.meta.id == id)`. -/
def CommandLog.get_by_id {C : Type} (log : CommandLog C) (id : CommandId) :
    Option (LogEntry C) :=
  log.entries.find? (fun e => e.meta.id = id)

/-- Embeds `CommandLog::successes`. -/
def CommandLog.successes {C : Type} (log : CommandLog C) : List (LogEntry C) :=
  log.entries.filter (fun e => e.succeeded)

/-- Embeds `CommandLog::failures`. -/
def CommandLog.failures {C : Type} (log : CommandLog C) : List (LogEntry C) :=
  log.entries.filter (fun e => !e.succeeded)

/-- Embeds `CommandLog::in_frame_range`: keep entries whose frame is present
and within the inclusive bounds; `unwrap_or(false)` drops frame-less
entries. -/
def CommandLog.in_frame_range {C : Type} (log : CommandLog C)
    (start stop : Nat) : List (LogEntry C) :=
  log.entries.filter (fun e =>
    match e.meta.frame with
    | some f => decide (start ≤ f) && decide (f ≤ stop)
    | none => false)

/-- Embeds `CommandLog::save_to_file`: one serialized record per line of the
written file, in entry order (the file is created fresh, so its content is
exactly these lines). -/
def CommandLog.save_to_file {C : Type} (encC : C → Json) (log : CommandLog C) :
    List Json :=
  log.entries.map (LogEntry.toJson encC)

/-- The line-by-line parse loop of `CommandLog::load_from_file`: any line
that fails to parse aborts the load with an error (`none` here). -/
def parseLines {C : Type} (decC : Json → Option C) :
    List Json → Option (List (LogEntry C))
  | [] => some []
  | line :: rest =>
    match LogEntry.fromJson decC line with
    | none => none
    | some entry =>
      match parseLines decC rest with
      | none => none
      | some more => some (entry :: more)

/-- Embeds `CommandLog::load_from_file`: parse every line, then build a log
with auto-persist disabled and no path. -/
def CommandLog.load_from_file {C : Type} (decC : Json → Option C)
    (fileLines : List Json) : Option (CommandLog C) :=
  match parseLines decC fileLines with
  | none => none
  | some entries =>
    some { entries := entries, auto_persist := false, persist_path := none }

/-- Rust `ReplayIterator<'a, C>` from roguebench-engine/src/commands/log.rs:
the not-yet-visited entries and the `filter_successes` flag. -/
structure ReplayIterator (C : Type) where
  entries : List (LogEntry C)
  filter_successes : Bool

/-- Embeds `ReplayIterator::new`: all entries, no filtering. -/
def ReplayIterator.new {C : Type} (log : CommandLog C) : ReplayIterator C :=
  { entries := log.entries, filter_successes := false }

/-- Embeds `ReplayIterator::successes_only`. -/
def ReplayIterator.successes_only {C : Type} (it : ReplayIterator C) :
    ReplayIterator C :=
  { it with filter_successes := true }

/-- The full sequence the iterator's `next` loop produces before returning
`None`: each remaining entry's `(command, metadata)` pair, skipping failed
entries when `filter_successes` is set. -/
def ReplayIterator.toList {C : Type} : ReplayIterator C →
    List (C × CommandMeta)
  | ⟨[], _⟩ => []
  | ⟨e :: rest, filt⟩ =>
    if filt && !e.succeeded then ReplayIterator.toList ⟨rest, filt⟩
    else (e.command, e.meta) :: ReplayIterator.toList ⟨rest, filt⟩

/-- Embeds `CommandLog::replay`. -/
def CommandLog.replay {C : Type} (log : CommandLog C) : ReplayIterator C :=
  ReplayIterator.new log

/-- The envelope `send` constructs for command `c` when the counter reads
`n`, the clock reads `ts` and the current frame is `f`. -/
def sentEnvelope {C : Type} (c : C) (n ts f : Nat) : Envelope C :=
  Envelope.new c ((CommandMeta.new (CommandId.new n) ts).with_frame f)

theorem send_eq {C : Type} (bus : CommandBus C) (c : C) (ts : Nat) :
    bus.send c ts =
      (CommandId.new bus.next_id,
       { queue := bus.queue ++
           [sentEnvelope c bus.next_id ts bus.current_frame],
         next_id := (bus.next_id + 1) % 2 ^ 64,
         current_frame := bus.current_frame }) := by
  rfl

/-- Full characterisation of a run of `send` calls whose count keeps the
`u64` counter from wrapping: the returned identities are the consecutive
block starting at the counter's initial value, the queue grows at the tail
by one envelope per call pairing each input with its identity and the
current frame, and the frame value is untouched. -/
theorem sendAll_spec {C : Type} (inputs : List (C × Nat)) :
    ∀ bus : CommandBus C, bus.next_id + inputs.length ≤ 2 ^ 64 →
      (bus.sendAll inputs).1
          = (List.range' bus.next_id inputs.length).map CommandId.new
        ∧ (bus.sendAll inputs).2.queue
          = bus.queue ++
            ((inputs.zip (List.range' bus.next_id inputs.length)).map
              (fun q => sentEnvelope q.1.1 q.2 q.1.2 bus.current_frame))
        ∧ (bus.sendAll inputs).2.current_frame = bus.current_frame := by
  induction inputs with
  | nil =>
    intro bus _
    exact ⟨rfl, by simp [CommandBus.sendAll], rfl⟩
  | cons p rest ih =>
    obtain ⟨c, ts⟩ := p
    intro bus h
    simp only [List.length_cons] at h
    have hunfold : bus.sendAll ((c, ts) :: rest)
        = ((bus.send c ts).1 :: ((bus.send c ts).2.sendAll rest).1,
           ((bus.send c ts).2.sendAll rest).2) := rfl
    rcases Nat.lt_or_ge (bus.next_id + 1) (2 ^ 64) with hlt | hge
    · have hmod : (bus.next_id + 1) % 2 ^ 64 = bus.next_id + 1 :=
        Nat.mod_eq_of_lt hlt
      have hnext : (bus.send c ts).2.next_id = bus.next_id + 1 := by
        show (bus.next_id + 1) % 2 ^ 64 = bus.next_id + 1
        exact hmod
      have hqueue : (bus.send c ts).2.queue
          = bus.queue ++ [sentEnvelope c bus.next_id ts bus.current_frame] :=
        rfl
      have hframe : (bus.send c ts).2.current_frame = bus.current_frame := rfl
      have hb : (bus.send c ts).2.next_id + rest.length ≤ 2 ^ 64 := by
        rw [hnext]; omega
      obtain ⟨ih1, ih2, ih3⟩ := ih ((bus.send c ts).2) hb
      rw [hnext] at ih1 ih2
      rw [hqueue] at ih2
      rw [hframe] at ih2
      refine ⟨?_, ?_, ?_⟩
      · rw [hunfold]
        show (bus.send c ts).1 :: ((bus.send c ts).2.sendAll rest).1 = _
        simp only [List.length_cons]
        rw [List.range'_succ, List.map_cons, ih1]
        rfl
      · rw [hunfold]
        show ((bus.send c ts).2.sendAll rest).2.queue = _
        simp only [List.length_cons]
        rw [ih2, List.append_assoc, List.range'_succ, List.zip_cons_cons,
          List.map_cons]
        rfl
      · rw [hunfold]
        show ((bus.send c ts).2.sendAll rest).2.current_frame = _
        rw [ih3, hframe]
    · have hrest : rest = [] := by
        have : rest.length = 0 := by omega
        exact List.length_eq_zero.mp this
      subst hrest
      exact ⟨rfl, rfl, rfl⟩

theorem map_snd_comp_zip {α β γ : Type} (f : β → γ) (l₁ : List α)
    (l₂ : List β) (h : l₂.length ≤ l₁.length) :
    (l₁.zip l₂).map (fun q => f q.2) = l₂.map f := by
  rw [show (fun q : α × β => f q.2) = f ∘ Prod.snd from rfl,
    ← List.map_map, List.map_snd_zip l₁ l₂ h]

/-- C1: on a fresh bus, any sequence of `send` calls that stays within the
identity counter's `u64` range returns the identities `1, 2, ..., N` in
call order, and those same identities are the ones stamped into the drained
envelopes' metadata, in the same order. -/
theorem send_identities_sequential {C : Type} (inputs : List (C × Nat))
    (h : inputs.length < 2 ^ 64) :
    ((CommandBus.mkDefault C).sendAll inputs).1
        = (List.range' 1 inputs.length).map CommandId.new ∧
      (((CommandBus.mkDefault C).sendAll inputs).2.drain.1.map
          (fun e => e.meta.id))
        = (List.range' 1 inputs.length).map CommandId.new := by
  obtain ⟨h1, h2, _⟩ := sendAll_spec inputs (CommandBus.mkDefault C) (by
    show 1 + inputs.length ≤ 2 ^ 64
    omega)
  constructor
  · exact h1
  · show ((CommandBus.mkDefault C).sendAll inputs).2.queue.map
        (fun e => e.meta.id) = _
    rw [h2]
    simp only [CommandBus.mkDefault, List.nil_append, List.map_map]
    exact map_snd_comp_zip CommandId.new inputs
      (List.range' 1 inputs.length) (by simp)

/-- C1 witness: three sends on a fresh bus return identities 1, 2, 3, and
those identities are the ones in the drained envelopes. -/
theorem send_identities_sequential_witness :
    ([(10, 0), (20, 0), (30, 0)] : List (Nat × Nat)).length < 2 ^ 64 ∧
      (((CommandBus.mkDefault Nat).sendAll [(10, 0), (20, 0), (30, 0)]).1
          = (List.range' 1 3).map CommandId.new ∧
        (((CommandBus.mkDefault Nat).sendAll
            [(10, 0), (20, 0), (30, 0)]).2.drain.1.map (fun e => e.meta.id))
          = (List.range' 1 3).map CommandId.new) :=
  ⟨by decide,
   send_identities_sequential [(10, 0), (20, 0), (30, 0)] (by decide)⟩

/-- Any run of sends appends exactly the sent commands, in call order, at
the tail of the queue (no counter bound needed: only commands are read
off). -/
theorem sendAll_queue_commands {C : Type} (inputs : List (C × Nat)) :
    ∀ bus : CommandBus C,
      (bus.sendAll inputs).2.queue.map (fun e => e.command)
        = bus.queue.map (fun e => e.command) ++ inputs.map Prod.fst := by
  induction inputs with
  | nil => intro bus; simp [CommandBus.sendAll]
  | cons p rest ih =>
    obtain ⟨c, ts⟩ := p
    intro bus
    have hunfold : (bus.sendAll ((c, ts) :: rest)).2
        = ((bus.send c ts).2.sendAll rest).2 := rfl
    have hq : (bus.send c ts).2.queue
        = bus.queue ++ [sentEnvelope c bus.next_id ts bus.current_frame] :=
      rfl
    rw [hunfold, ih, hq]
    simp [sentEnvelope, Envelope.new]

/-- Any run of sends stamps the bus's current frame, as a present value,
onto every appended envelope, and leaves the frame value itself
unchanged. -/
theorem sendAll_queue_frames {C : Type} (inputs : List (C × Nat)) :
    ∀ bus : CommandBus C,
      (bus.sendAll inputs).2.queue.map (fun e => e.meta.frame)
        = bus.queue.map (fun e => e.meta.frame)
          ++ inputs.map (fun _ => some bus.current_frame) := by
  induction inputs with
  | nil => intro bus; simp [CommandBus.sendAll]
  | cons p rest ih =>
    obtain ⟨c, ts⟩ := p
    intro bus
    have hunfold : (bus.sendAll ((c, ts) :: rest)).2
        = ((bus.send c ts).2.sendAll rest).2 := rfl
    have hq : (bus.send c ts).2.queue
        = bus.queue ++ [sentEnvelope c bus.next_id ts bus.current_frame] :=
      rfl
    have hf : (bus.send c ts).2.current_frame = bus.current_frame := rfl
    rw [hunfold, ih, hq]
    simp only [hf]
    simp [sentEnvelope, Envelope.new, CommandMeta.new, CommandMeta.with_frame]

/-- C2: for every bus state, `drain` yields exactly the pending envelopes in
FIFO order and the bus is empty immediately afterwards (`len` 0,
`is_empty`); moreover the drained sequence after any run of sends lists the
sent commands in send order.  The model returns the whole drained sequence
and the emptied bus in one step, mirroring Rust's `Drain`, which clears the
backing queue even when the caller stops consuming it. -/
theorem drain_fifo_and_empties {C : Type} (bus : CommandBus C)
    (inputs : List (C × Nat)) :
    bus.drain.1 = bus.queue
      ∧ bus.drain.2.queue = []
      ∧ bus.drain.2.len = 0
      ∧ bus.drain.2.is_empty = true
      ∧ ((bus.sendAll inputs).2.drain.1.map (fun e => e.command))
        = bus.queue.map (fun e => e.command) ++ inputs.map Prod.fst :=
  ⟨rfl, rfl, rfl, rfl, sendAll_queue_commands inputs bus⟩

/-- C6: `send_with_meta` leaves the identity counter untouched (a
subsequent `send` returns the identity it would have returned anyway) and
enqueues an envelope carrying the caller's metadata verbatim, returned
unchanged by a later drain. -/
theorem send_with_meta_counter_and_meta {C : Type} (bus : CommandBus C)
    (c : C) (meta : CommandMeta) (c' : C) (ts : Nat) :
    (bus.send_with_meta c meta).next_id = bus.next_id
      ∧ ((bus.send_with_meta c meta).send c' ts).1 = (bus.send c' ts).1
      ∧ (bus.send_with_meta c meta).drain.1
        = bus.queue ++ [Envelope.new c meta]
      ∧ ((bus.send_with_meta c meta).drain.1.map (fun e => e.meta))
        = bus.queue.map (fun e => e.meta) ++ [meta] :=
  ⟨rfl, rfl, rfl, by
    simp [CommandBus.send_with_meta, CommandBus.drain, Envelope.new]⟩

/-- C10: every envelope `send` enqueues carries a present frame equal to the
bus's current frame; a fresh bus starts at frame 0, so before any
`set_frame` every sent envelope carries `some 0` — an absent frame can only
be enqueued through `send_with_meta`. -/
theorem send_frame_always_present {C : Type} (bus : CommandBus C) (c : C)
    (ts : Nat) (inputs : List (C × Nat)) :
    ((bus.send c ts).2.queue.map (fun e => e.meta.frame))
        = bus.queue.map (fun e => e.meta.frame) ++ [some bus.current_frame]
      ∧ (CommandBus.mkDefault C).current_frame = 0
      ∧ (((CommandBus.mkDefault C).sendAll inputs).2.queue.map
          (fun e => e.meta.frame))
        = inputs.map (fun _ => some 0) := by
  refine ⟨?_, rfl, ?_⟩
  · have hq : (bus.send c ts).2.queue
        = bus.queue ++ [sentEnvelope c bus.next_id ts bus.current_frame] :=
      rfl
    rw [hq]
    simp [sentEnvelope, Envelope.new, CommandMeta.new, CommandMeta.with_frame]
  · exact sendAll_queue_frames inputs (CommandBus.mkDefault C)

theorem validateLoop_ok_iff {C : Type} (l : List (ValidatorFn C)) (c : C) :
    validateLoop l c = Except.ok () ↔ ∀ v ∈ l, v c = Except.ok () := by
  induction l with
  | nil => simp [validateLoop]
  | cons v rest ih =>
    simp only [validateLoop]
    cases hv : v c with
    | error e => simp [hv]
    | ok u => cases u; simp [hv, ih]

theorem validateLoop_first_error {C : Type} (l : List (ValidatorFn C))
    (c : C) :
    validateLoop l c =
      (match l.filterMap (fun v => exceptErr (v c)) with
       | [] => Except.ok ()
       | e :: _ => Except.error e) := by
  induction l with
  | nil => simp [validateLoop]
  | cons v rest ih =>
    simp only [validateLoop, List.filterMap_cons]
    cases hv : v c with
    | error e => simp [hv, exceptErr]
    | ok u => cases u; simp [hv, exceptErr, ih]

/-- C4: `validate` succeeds exactly when every registered validator accepts;
otherwise it returns the error of the earliest-registered rejecting
validator (the head of `validate_all`'s result); `validate_all` returns
exactly the errors each validator produces, taken in registration order. -/
theorem validate_fail_fast_and_collect_all {C : Type} (vs : Validators C)
    (c : C) :
    (vs.validate c = Except.ok () ↔
        ∀ v ∈ vs.validators, v c = Except.ok ())
      ∧ vs.validate c =
          (match vs.validate_all c with
           | [] => Except.ok ()
           | e :: _ => Except.error e)
      ∧ vs.validate_all c
        = (vs.validators.map (fun v => v c)).filterMap exceptErr := by
  refine ⟨validateLoop_ok_iff vs.validators c,
    validateLoop_first_error vs.validators c, ?_⟩
  rw [List.filterMap_map]
  rfl

theorem replay_toList_all {C : Type} (entries : List (LogEntry C)) :
    ReplayIterator.toList ⟨entries, false⟩
      = entries.map (fun e => (e.command, e.meta)) := by
  induction entries with
  | nil => simp [ReplayIterator.toList]
  | cons e rest ih => simp [ReplayIterator.toList, ih]

theorem replay_toList_successes {C : Type} (entries : List (LogEntry C)) :
    ReplayIterator.toList ⟨entries, true⟩
      = (entries.filter (fun e => e.succeeded)).map
          (fun e => (e.command, e.meta)) := by
  induction entries with
  | nil => simp [ReplayIterator.toList]
  | cons e rest ih =>
    cases he : e.succeeded <;>
      simp [ReplayIterator.toList, List.filter_cons, he, ih]

/-- C5: exhausting `replay()` yields every entry's `(command, metadata)`
pair in append order; `replay().successes_only()` yields exactly the
subsequence of pairs from entries with `succeeded = true`, in that same
order.  The iterator borrows the log immutably, so constructing or
consuming it cannot change the log, and `replay()` called again denotes the
same sequence by construction. -/
theorem replay_preserves_order_and_filters {C : Type} (log : CommandLog C) :
    (log.replay).toList = log.entries.map (fun e => (e.command, e.meta))
      ∧ ((log.replay).successes_only).toList
        = (log.entries.filter (fun e => e.succeeded)).map
            (fun e => (e.command, e.meta)) :=
  ⟨replay_toList_all log.entries, replay_toList_successes log.entries⟩

/-- C8: `in_frame_range lo hi` is a sub-sequence of the entries (append
order preserved) containing exactly those entries whose frame is present
and lies within the inclusive bounds; frame-less entries never appear. -/
theorem in_frame_range_inclusive {C : Type} (log : CommandLog C)
    (lo hi : Nat) (h : lo ≤ hi) :
    (log.in_frame_range lo hi).Sublist log.entries
      ∧ ∀ e : LogEntry C,
          e ∈ log.in_frame_range lo hi ↔
            e ∈ log.entries ∧ ∃ f, e.meta.frame = some f ∧ lo ≤ f ∧ f ≤ hi := by
  refine ⟨List.filter_sublist _, fun e => ?_⟩
  simp only [CommandLog.in_frame_range, List.mem_filter]
  cases hf : e.meta.frame <;> simp [hf]

/-- A log with frames 10, 15, absent, and 30 for exercising the frame-range
view at its boundaries. -/
def frameLogSample : CommandLog Nat :=
  { entries :=
      [⟨1, ⟨CommandId.new 1, 0, some 10⟩, true⟩,
       ⟨2, ⟨CommandId.new 2, 0, some 15⟩, true⟩,
       ⟨3, ⟨CommandId.new 3, 0, none⟩, false⟩,
       ⟨4, ⟨CommandId.new 4, 0, some 30⟩, true⟩],
    auto_persist := false, persist_path := none }

/-- C8 witness: the frame-range view of the sample log between 15 and 30
keeps order, includes both boundary frames and drops the frame-less
entry. -/
theorem in_frame_range_inclusive_witness :
    15 ≤ 30 ∧
      ((frameLogSample.in_frame_range 15 30).Sublist frameLogSample.entries
        ∧ ∀ e : LogEntry Nat,
            e ∈ frameLogSample.in_frame_range 15 30 ↔
              e ∈ frameLogSample.entries ∧
                ∃ f, e.meta.frame = some f ∧ 15 ≤ f ∧ f ≤ 30) :=
  ⟨by decide, in_frame_range_inclusive frameLogSample 15 30 (by decide)⟩

/-- C9: `log_success` and `log_failure` each append exactly one entry, with
the right success flag, at the tail of the in-memory log, for every
auto-persist configuration and every filesystem state — the best-effort
persistence step can only change the backing file, never the in-memory
append, and no failure is reported (the functions are total, with no error
channel). -/
theorem log_append_swallows_persist_failure {C : Type} (encC : C → Json)
    (log : CommandLog C) (c : C) (m : CommandMeta) (fs : PersistFS) :
    (CommandLog.log_success encC log c m fs).1.entries
        = log.entries ++ [LogEntry.success c m]
      ∧ (CommandLog.log_failure encC log c m fs).1.entries
        = log.entries ++ [LogEntry.failed c m]
      ∧ (LogEntry.success c m).succeeded = true
      ∧ (LogEntry.failed c m).succeeded = false := by
  refine ⟨?_, ?_, rfl, rfl⟩ <;>
    · simp only [CommandLog.log_success, CommandLog.log_failure,
        CommandLog.append]
      split <;> rfl

/-- First match of `find?` is the unique match when the matching key occurs
at most once: under pairwise-distinct identities, `find?` returns whichever
entry carries the requested identity. -/
theorem find_unique_of_pairwise {C : Type} (l : List (LogEntry C))
    (i : CommandId)
    (hpw : l.Pairwise (fun a b => a.meta.id ≠ b.meta.id)) :
    ∀ e ∈ l, e.meta.id = i →
      l.find? (fun e' => e'.meta.id = i) = some e := by
  induction l with
  | nil => intro e he; cases he
  | cons a rest ih =>
    intro e he hei
    rcases List.mem_cons.mp he with rfl | hmem
    · exact List.find?_cons_of_pos rest (by simp [hei])
    · have hne : a.meta.id ≠ i := hei ▸ (List.pairwise_cons.mp hpw).1 e hmem
      rw [List.find?_cons_of_neg rest (by simp [hne])]
      exact ih (List.pairwise_cons.mp hpw).2 e hmem hei

/-- When `find?` returns an element, that element sits at an index every
earlier index of which fails the predicate: `find?` is the earliest
match. -/
theorem find_earliest {α : Type} (p : α → Bool) :
    ∀ (l : List α) (a : α), l.find? p = some a →
      ∃ k, ∃ hk : k < l.length,
        l.get ⟨k, hk⟩ = a ∧ p a = true ∧
          ∀ j, ∀ hj : j < l.length, j < k → p (l.get ⟨j, hj⟩) = false := by
  intro l
  induction l with
  | nil => intro a h; exact absurd h (by simp)
  | cons x xs ih =>
    intro a h
    cases hp : p x with
    | true =>
      rw [List.find?_cons_of_pos xs hp] at h
      injection h with h
      subst h
      exact ⟨0, by simp, rfl, hp,
        fun j hj hj0 => absurd hj0 (Nat.not_lt_zero j)⟩
    | false =>
      rw [List.find?_cons_of_neg xs (by simp [hp])] at h
      obtain ⟨k, hk, hget, hpa, hearlier⟩ := ih a h
      refine ⟨k + 1, by simpa using Nat.succ_lt_succ hk, hget, hpa, ?_⟩
      intro j hj hjk
      cases j with
      | zero => exact hp
      | succ m =>
        have hm : m < xs.length := by simpa using hj
        exact hearlier m hm (Nat.lt_of_succ_lt_succ hjk)

/-- A log reachable by two `log_success` calls whose caller-supplied
metadata reuses identity 1 (nothing in `CommandLog` rejects this). -/
def dupIdLog : CommandLog Nat :=
  (((CommandLog.new Nat).log_success Json.num 7
      (CommandMeta.new (CommandId.new 1) 0) ⟨true, []⟩).1.log_success Json.num
    8 (CommandMeta.new (CommandId.new 1) 5) ⟨true, []⟩).1

/-- C7 counterexample: a log reached purely through `log_success` calls
holds two different entries sharing identity 1, so identities are not
unique within a log, and `get_by_id 1` returns the earlier of the two
matches rather than a unique one. -/
theorem get_by_id_unique_counterexample :
    dupIdLog.entries.length = 2
      ∧ (dupIdLog.entries.get ⟨0, by decide⟩).meta.id
        = (dupIdLog.entries.get ⟨1, by decide⟩).meta.id
      ∧ dupIdLog.entries.get ⟨0, by decide⟩
        ≠ dupIdLog.entries.get ⟨1, by decide⟩
      ∧ dupIdLog.get_by_id (CommandId.new 1)
        = some (dupIdLog.entries.get ⟨0, by decide⟩) := by
  decide

/-- C7 (amended): `get_by_id` returns the earliest entry in append order
whose metadata identity matches — any returned entry sits at an index at
which the identity matches while every strictly earlier index carries a
different identity — or none exactly when no entry matches; only under the
extra assumption that the log's entries carry pairwise-distinct identities
(as when all metadata comes from a single bus's `send`) is the returned
entry the unique match. -/
theorem get_by_id_first_match {C : Type} (log : CommandLog C)
    (i : CommandId) :
    (log.get_by_id i = none ↔ ∀ e ∈ log.entries, e.meta.id ≠ i)
      ∧ (∀ e, log.get_by_id i = some e →
          ∃ k, ∃ hk : k < log.entries.length,
            log.entries.get ⟨k, hk⟩ = e ∧ e.meta.id = i ∧
              ∀ j, ∀ hj : j < log.entries.length, j < k →
                (log.entries.get ⟨j, hj⟩).meta.id ≠ i)
      ∧ (log.entries.Pairwise (fun a b => a.meta.id ≠ b.meta.id) →
          ∀ e ∈ log.entries, e.meta.id = i → log.get_by_id i = some e) := by
  refine ⟨?_, ?_, ?_⟩
  · simp [CommandLog.get_by_id, List.find?_eq_none]
  · intro e hfind
    have hfind' : log.entries.find? (fun e' => e'.meta.id = i) = some e :=
      hfind
    obtain ⟨k, hk, hget, hpa, hearlier⟩ :=
      find_earliest (fun e' => e'.meta.id = i) log.entries e hfind'
    refine ⟨k, hk, hget, by simpa using hpa, ?_⟩
    intro j hj hjk
    simpa using hearlier j hj hjk
  · intro hpw e he hei
    exact find_unique_of_pairwise log.entries i hpw e he hei

/-- C7 witness: the amended statement instantiated on the duplicate-identity
log at identity 2, every part evaluated on the concrete data. -/
theorem get_by_id_first_match_witness :
    (dupIdLog.get_by_id (CommandId.new 2) = none ↔
        ∀ e ∈ dupIdLog.entries, e.meta.id ≠ CommandId.new 2)
      ∧ (∀ e, dupIdLog.get_by_id (CommandId.new 2) = some e →
          ∃ k, ∃ hk : k < dupIdLog.entries.length,
            dupIdLog.entries.get ⟨k, hk⟩ = e ∧ e.meta.id = CommandId.new 2 ∧
              ∀ j, ∀ hj : j < dupIdLog.entries.length, j < k →
                (dupIdLog.entries.get ⟨j, hj⟩).meta.id ≠ CommandId.new 2)
      ∧ (dupIdLog.entries.Pairwise (fun a b => a.meta.id ≠ b.meta.id) →
          ∀ e ∈ dupIdLog.entries, e.meta.id = CommandId.new 2 →
            dupIdLog.get_by_id (CommandId.new 2) = some e) :=
  get_by_id_first_match dupIdLog (CommandId.new 2)

theorem meta_json_roundtrip (m : CommandMeta) :
    CommandMeta.fromJson m.toJson = some m := by
  obtain ⟨⟨n⟩, ts, fr⟩ := m
  cases fr <;> rfl

theorem logEntry_json_roundtrip {C : Type} (encC : C → Json)
    (decC : Json → Option C) (e : LogEntry C)
    (h : decC (encC e.command) = some e.command) :
    LogEntry.fromJson decC (LogEntry.toJson encC e) = some e := by
  obtain ⟨c, m, b⟩ := e
  have h1 : jsonField (LogEntry.toJson encC ⟨c, m, b⟩) "command"
      = some (encC c) := rfl
  have h2 : jsonField (LogEntry.toJson encC ⟨c, m, b⟩) "meta"
      = some m.toJson := rfl
  have h3 : jsonField (LogEntry.toJson encC ⟨c, m, b⟩) "succeeded"
      = some (Json.bool b) := rfl
  simp only [LogEntry.fromJson, h1, h2, h3, h, meta_json_roundtrip]

theorem parseLines_roundtrip {C : Type} (encC : C → Json)
    (decC : Json → Option C) (h : ∀ c : C, decC (encC c) = some c) :
    ∀ entries : List (LogEntry C),
      parseLines decC (entries.map (LogEntry.toJson encC)) = some entries := by
  intro entries
  induction entries with
  | nil => rfl
  | cons e rest ih =>
    simp only [List.map_cons, parseLines,
      logEntry_json_roundtrip encC decC e (h e.command), ih]

/-- C3: whenever the command type's own serde round-trips (serde_json's
contract for the derived `Serialize`/`Deserialize` the `Command` trait
requires), saving a log and loading the produced lines back yields `some`
log whose entries equal the original's, in order and field for field
(command, identity, timestamp, frame including absence, success flag), with
auto-persist disabled and no persist path. -/
theorem save_load_roundtrip {C : Type} (encC : C → Json)
    (decC : Json → Option C) (h : ∀ c : C, decC (encC c) = some c)
    (log : CommandLog C) :
    CommandLog.load_from_file decC (log.save_to_file encC)
      = some { entries := log.entries, auto_persist := false,
               persist_path := none } := by
  simp only [CommandLog.save_to_file, CommandLog.load_from_file,
    parseLines_roundtrip encC decC h log.entries]

/-- Deserializer for `Nat`-valued commands, inverse to `Json.num`. -/
def natDec : Json → Option Nat
  | Json.num n => some n
  | _ => none

/-- A two-entry log exercising both success flags and both frame shapes,
with auto-persist on so the loaded copy visibly differs in configuration. -/
def roundLogSample : CommandLog Nat :=
  { entries :=
      [⟨5, ⟨CommandId.new 1, 100, some 7⟩, true⟩,
       ⟨6, ⟨CommandId.new 2, 200, none⟩, false⟩],
    auto_persist := true, persist_path := some "commands.jsonl" }

/-- C3 witness: the round trip evaluated on the sample log. -/
theorem save_load_roundtrip_witness :
    CommandLog.load_from_file natDec (roundLogSample.save_to_file Json.num)
      = some { entries := roundLogSample.entries, auto_persist := false,
               persist_path := none } :=
  save_load_roundtrip Json.num natDec (fun _ => rfl) roundLogSample

end Roguebench
